import Mathlib

/-
Verification of the dust cleanup-rule DSL: a shallow embedding of the
tokenizer (src/tokenizer.js), parser (src/parser.js), safety validator
(src/validator.js), the rule evaluator (src/evaluator.js) and the
top-level findTargets entry point (src/index.js), together with proofs
about the embedded definitions.

Modelling conventions:
  - Filesystem paths are lists of segments (`Path := List String`); the
    JS code manipulates separator-joined strings via the `path` module.
    `path.dirname` becomes `List.dropLast`, `String.startsWith baseDir`
    on a dirname-ancestor chain becomes `List.isPrefixOf`, and
    `path.relative` becomes `relSegs` below.
  - The filesystem is a finite tree `FS`; a directory carries a
    `readable` flag: `fsp.readdir` of an unreadable directory throws in
    JS, which the embedding renders as `Except.error ()`.
  - `minimatch` pattern compilation and the `glob` engine are abstract
    oracles (`mm`, `globE`, `globT`): the claims under proof do not
    depend on glob semantics, only on how the evaluator combines the
    matchers.  A glob engine failure is an `Except.error ()` result.
  - Sequential `await`ed filesystem probes made by condition evaluation
    are recorded in an explicit trace (the list of `exists(dir,pattern)`
    calls, in call order), which models the I/O effect order of the
    source and lets short-circuiting be stated exactly.
  - The evaluator memoization caches (relativePathCache, ignoreCache,
    skipCache) are pure memoization and are omitted.
  - Event emission (`EventEmitter`) is modelled by returning the list of
    emitted events in order.
-/

namespace Dust

/-! ## Paths -/

abbrev Path := List String

/-- Length of the longest common prefix of two segment lists. -/
def commonPrefixLen : Path → Path → Nat
  | a :: as, b :: bs => if a == b then commonPrefixLen as bs + 1 else 0
  | _, _ => 0

/-- Embedding of `path.relative(base, p)` on segment lists: strip the
common prefix and climb with ".." segments for the rest of `base`. -/
def relSegs (base p : Path) : Path :=
  let n := commonPrefixLen base p
  List.replicate (base.length - n) ".." ++ p.drop n

/-! Character-list implementations of the string primitives the source
uses (`endsWith`, `slice`, `split`, `trim`); the library versions are
byte-position based and are replaced by these so that every definition
evaluates inside the kernel. -/

/-- JS String.prototype.endsWith. -/
def strEndsWith (s suffix : String) : Bool :=
  suffix.toList.isSuffixOf s.toList

/-- JS String.prototype.slice(0, -n): drop the last `n` characters. -/
def strDropRight (s : String) (n : Nat) : String :=
  String.mk (s.toList.take (s.toList.length - n))

/-- Split a character list on a separator character. -/
def splitOnChar (sep : Char) : List Char → List (List Char)
  | [] => [[]]
  | c :: cs =>
    let r := splitOnChar sep cs
    if c == sep then [] :: r
    else
      match r with
      | hd :: tl => (c :: hd) :: tl
      | [] => [[c]]

/-- JS String.prototype.split("/"): the segments of a pattern. -/
def strSplitSlash (s : String) : Path :=
  (splitOnChar ('/') s.toList).map String.mk

/-- JS String.prototype.trim. -/
def strTrim (s : String) : String :=
  String.mk
    (((s.toList.dropWhile (fun c => c.isWhitespace)).reverse.dropWhile
        (fun c => c.isWhitespace)).reverse)

/-! ## Tokenizer (src/tokenizer.js) -/

/-- A lexer token: `type` is one of "keyword", "identifier", "string",
"comment", "eof". -/
structure Token where
  type : String
  value : String
  line : Nat
  column : Nat
deriving DecidableEq

/-- The keyword set of src/tokenizer.js line 9.  Note that "skip" is
absent from the source list. -/
def KEYWORDS : List String :=
  ["delete", "ignore", "when", "exists", "and", "not", "here", "parent",
   "parents", "child", "children", "sibling"]

/-- Characters that may start an identifier in the tokenize dispatch
(regex `[a-zA-Z0-9_.*/]` at src/tokenizer.js line 223; no hyphen). -/
def isIdentStart (c : Char) : Bool :=
  c.isAlphanum || c == '_' || c == '.' || c == '*' || c == '/'

/-- Characters that may continue an identifier (regex `[a-zA-Z0-9_.\-*/]`
at src/tokenizer.js line 171; includes hyphen). -/
def isIdentChar (c : Char) : Bool :=
  isIdentStart c || c == '-'

/-- skipWhitespace: consume spaces, tabs and carriage returns (not
newlines), advancing the column. -/
def skipWS : List Char → Nat → List Char × Nat
  | [], col => ([], col)
  | c :: cs, col =>
    if c == ' ' || c == '\t' || c == '\r' then skipWS cs (col + 1)
    else (c :: cs, col)

/-- Read characters up to (excluding) the next newline; returns the
consumed run and the rest. -/
def takeLine : List Char → List Char × List Char
  | [] => ([], [])
  | c :: cs =>
    if c == '\n' then ([], c :: cs)
    else
      let r := takeLine cs
      (c :: r.1, r.2)

/-- Read the run of identifier characters; returns the run and the rest. -/
def takeIdent : List Char → List Char × List Char
  | [] => ([], [])
  | c :: cs =>
    if isIdentChar c then
      let r := takeIdent cs
      (c :: r.1, r.2)
    else ([], c :: cs)

/-- Position update of Tokenizer.advance for one character. -/
def stepPos (line col : Nat) (c : Char) : Nat × Nat :=
  if c == '\n' then (line + 1, 1) else (line, col + 1)

/-- readQuotedString after the opening quote `q` was consumed: returns
(decoded value characters, rest of input, line, column).  Escapes
`\n`, `\t`, `\\` and either quote are decoded; other escaped characters
pass through; an unterminated string consumes to end of input. -/
def readQS (q : Char) : List Char → Nat → Nat → List Char × List Char × Nat × Nat
  | [], line, col => ([], [], line, col)
  | c :: cs, line, col =>
    if c == q then ([], cs, line, col + 1)
    else if c == '\\' then
      match cs with
      | [] => ([], [], line, col + 1)
      | n :: cs2 =>
        let decoded : Char :=
          if n == 'n' then '\n'
          else if n == 't' then '\t'
          else if n == '\\' then '\\'
          else if n == '\x27' then '\x27'
          else if n == '"' then '"'
          else n
        let p2 := stepPos line (col + 1) n
        let r := readQS q cs2 p2.1 p2.2
        (decoded :: r.1, r.2.1, r.2.2.1, r.2.2.2)
    else
      let p2 := stepPos line col c
      let r := readQS q cs p2.1 p2.2
      (c :: r.1, r.2.1, r.2.2.1, r.2.2.2)

/-- The main tokenize loop (Tokenizer.tokenize), fuelled: each source
loop iteration consumes at least one character, so fuel `length + 1`
never runs out.  Returns the tokens and the final line/column (used by
the eof token). -/
def tokLoop : Nat → List Char → Nat → Nat → List Token × Nat × Nat
  | 0, _, line, col => ([], line, col)
  | fuel + 1, cs, line, col =>
    let s := skipWS cs col
    match s.1 with
    | [] => ([], line, s.2)
    | c :: rest =>
      if c == '\n' then tokLoop fuel rest (line + 1) 1
      else if c == '#' then
        let t := takeLine rest
        let tok : Token :=
          { type := ("comment"), value := strTrim (String.mk t.1),
            line := line, column := s.2 }
        let r := tokLoop fuel t.2 line (s.2 + 1 + t.1.length)
        (tok :: r.1, r.2.1, r.2.2)
      else if c == '"' || c == '\x27' then
        let qr := readQS c rest line (s.2 + 1)
        let tok : Token :=
          { type := ("string"), value := String.mk qr.1,
            line := line, column := s.2 }
        let r := tokLoop fuel qr.2.1 qr.2.2.1 qr.2.2.2
        (tok :: r.1, r.2.1, r.2.2)
      else if isIdentStart c then
        let idr := takeIdent (c :: rest)
        let sVal := String.mk idr.1
        let tok : Token :=
          { type := if KEYWORDS.contains sVal then ("keyword") else ("identifier"),
            value := sVal, line := line, column := s.2 }
        let r := tokLoop fuel idr.2 line (s.2 + idr.1.length)
        (tok :: r.1, r.2.1, r.2.2)
      else tokLoop fuel rest line (s.2 + 1)

/-- tokenize(input): run the loop and append the eof token. -/
def tokenizeF (input : String) : List Token :=
  let cs := input.toList
  let r := tokLoop (cs.length + 1) cs 1 1
  r.1 ++ [{ type := ("eof"), value := (""), line := r.2.1, column := r.2.2 }]

/-! ## Parser AST (src/parser.js)

The source AST is duck-typed: `Condition.right` is declared as a
`Predicate` but may actually hold a nested `Condition`; evaluation
dispatches on the `type` string field.  The embedding therefore uses a
single inductive `Node` for both shapes, with `nullN` standing for a JS
`null` field. -/

inductive Node where
  | nullN : Node
  | existsN (location : String) (pattern : Option String) : Node
  | notN (negated : Node) : Node
  | predN (predicate : Node) : Node
  | andN (left : Node) (right : Node) : Node
deriving DecidableEq

/-- The `type` string field of an AST node. -/
def Node.typeStr : Node → String
  | .nullN => ""
  | .existsN _ _ => "exists"
  | .notN _ => "not"
  | .predN _ => "predicate"
  | .andN _ _ => "and"

/-- A parsed rule: `action` is the raw token value ("delete" / "ignore" /
"skip"), `condition` is `none` for a JS `null`. -/
structure Rule where
  action : String
  target : String
  condition : Option Node
deriving DecidableEq

/-- Location keywords accepted by Parser.parseLocation. -/
def LOCATIONS : List String :=
  ["here", "parent", "parents", "child", "children", "sibling"]

/-- Parser.match: checks only the value of the current token. -/
def matchV (toks : List Token) (v : String) : Bool :=
  (toks.head?.map Token.value) == some v

/-- The location-then-exists tail of Parser.parsePredicate: an optional
location keyword, the `exists` keyword (checked by value, as
Parser.expect does), then an identifier or string pattern token. -/
def parseLocExists (toks : List Token) : Except String (Node × List Token) :=
  let locR : String × List Token :=
    match toks with
    | t :: rest =>
      if t.type == "keyword" && LOCATIONS.contains t.value then (t.value, rest)
      else (("here"), toks)
    | [] => (("here"), toks)
  match locR.2 with
  | t :: rest =>
    if t.value == "exists" then
      match rest with
      | pt :: rest2 =>
        if pt.type == "identifier" || pt.type == "string" then
          .ok (.existsN locR.1 (some pt.value), rest2)
        else .error ("Expected pattern after exists")
      | [] => .error ("Expected pattern after exists")
    else .error ("Expected exists")
  | [] => .error ("Expected exists")

/-- Parser.parsePredicate: `not` recursion, else location + exists. -/
def parsePredicateF : List Token → Except String (Node × List Token)
  | t :: rest =>
    if t.value == "not" then
      match parsePredicateF rest with
      | .error e => .error e
      | .ok r => .ok (.notN r.1, r.2)
    else parseLocExists (t :: rest)
  | [] => parseLocExists []

/-- The `and`-collection loop of Parser.parseCondition, fuelled: each
iteration consumes at least the `and` token, so fuel `length + 1` never
runs out on inputs the source parser terminates on. -/
def parseAndChain : Nat → List Token → List Node → Except String (List Node × List Token)
  | 0, _, _ => .error ("out of fuel")
  | fuel + 1, toks, acc =>
    if matchV toks ("and") then
      match parsePredicateF toks.tail with
      | .error e => .error e
      | .ok r => parseAndChain fuel r.2 (acc ++ [r.1])
    else .ok (acc, toks)

/-- The right-nested fold of Parser.parseCondition lines 138-152: the
innermost `and` holds the last two predicates, every earlier predicate
becomes the left of a surrounding `and`. -/
def buildChain : Node → List Node → Node
  | p, [] => p
  | p, q :: rest => .andN p (buildChain q rest)

/-- Parser.parseCondition result shape: a single predicate is wrapped in
a `predicate` condition; two or more are folded right-nested with
`buildChain` (the empty case cannot arise: parseCondition always parses
at least one predicate first). -/
def buildCondition : List Node → Node
  | [] => .predN .nullN
  | [p] => .predN p
  | p :: q :: rest => .andN p (buildChain q rest)

/-- Parser.parseCondition: one predicate, then the `and` chain, then the
right-nested fold. -/
def parseConditionF (toks : List Token) : Except String (Node × List Token) :=
  match parsePredicateF toks with
  | .error e => .error e
  | .ok r =>
    match parseAndChain (r.2.length + 1) r.2 [r.1] with
    | .error e => .error e
    | .ok pr => .ok (buildCondition pr.1, pr.2)

/-- Parser.parseRule: action keyword (by value), target token
(identifier or string), and a condition only when the action is
"delete" and the next token is `when`. -/
def parseRuleF (toks : List Token) : Except String (Option Rule × List Token) :=
  match toks with
  | t :: rest =>
    if t.type == "eof" then .ok (none, toks)
    else if t.value == "delete" || t.value == "ignore" || t.value == "skip" then
      match rest with
      | tt :: rest2 =>
        if tt.type == "identifier" || tt.type == "string" then
          if t.value == "delete" && matchV rest2 ("when") then
            match parseConditionF rest2.tail with
            | .error e => .error e
            | .ok cr => .ok (some ⟨t.value, tt.value, some cr.1⟩, cr.2)
          else .ok (some ⟨t.value, tt.value, none⟩, rest2)
        else .error ("Expected target pattern")
      | [] => .error ("Expected target pattern")
    else .error ("Expected delete, ignore, or skip action")
  | [] => .error ("Expected delete, ignore, or skip action")

/-- Parser.parse loop, fuelled: each iteration consumes at least the
action and target tokens or fails, so fuel `length + 1` never runs out
on inputs the source parser terminates on. -/
def parseLoop : Nat → List Token → List Rule → Except String (List Rule)
  | 0, _, _ => .error ("out of fuel")
  | fuel + 1, toks, acc =>
    match toks.head? with
    | some t =>
      if t.type == "eof" then .ok acc
      else
        match parseRuleF toks with
        | .error e => .error e
        | .ok (some r, rest) => parseLoop fuel rest (acc ++ [r])
        | .ok (none, rest) => parseLoop fuel rest acc
    | none =>
      match parseRuleF toks with
      | .error e => .error e
      | .ok (some r, rest) => parseLoop fuel rest (acc ++ [r])
      | .ok (none, rest) => parseLoop fuel rest acc

/-- parse(tokens): comment tokens are filtered by the Parser
constructor, then the rule loop runs. -/
def parseF (toks : List Token) : Except String (List Rule) :=
  let filtered := toks.filter (fun t => t.type != "comment")
  parseLoop (filtered.length + 1) filtered []

/-! ## Validator (src/validator.js) -/

/-- The DANGEROUS_PATTERNS constant (src/validator.js). -/
def DANGEROUS_PATTERNS : List String := ["*", "**", "*.*", "**/*"]

/-- isDangerousPattern: exact membership in DANGEROUS_PATTERNS, plus the
additional special case for the broad pattern. -/
def isDangerousPattern (pattern : String) : Bool :=
  if DANGEROUS_PATTERNS.contains pattern then true
  else if pattern == "**/*.*" then true
  else false

/-- Result of validating a single rule. -/
structure VRes where
  valid : Bool
  error : Option String
deriving DecidableEq

/-- validateRule: only delete rules are checked; a dangerous target is
accepted when any condition is present.  The error text follows the
source message (quote characters omitted). -/
def validateRule (r : Rule) : VRes :=
  if r.action != "delete" then ⟨true, none⟩
  else if isDangerousPattern r.target then
    if r.condition.isSome then ⟨true, none⟩
    else
      ⟨false,
       some (("Dangerous pattern detected: delete ") ++ r.target ++
             (" without any condition. This would delete all files. Please add a condition or use a more specific pattern."))⟩
  else ⟨true, none⟩

/-- Result of validating a rule list. -/
structure VRules where
  valid : Bool
  errors : List (Rule × String)
deriving DecidableEq

/-- validateRules: collect the error of every invalid rule, in order. -/
def validateRules (rules : List Rule) : VRules :=
  let errors := rules.foldl (fun acc r =>
    let res := validateRule r
    if res.valid then acc
    else acc ++ [(r, res.error.getD ("Unknown validation error"))]) []
  ⟨errors.isEmpty, errors⟩

/-! ## Filesystem model

A finite directory tree.  `dir readable entries`: `readable = false`
models a directory whose `fsp.readdir` call throws (the entries it
would have are irrelevant to the code, which never sees them).  Paths
are absolute segment lists resolved against the tree root. -/

mutual
inductive FS where
  | file : FS
  | dir (readable : Bool) (entries : Entries) : FS
inductive Entries where
  | nil : Entries
  | cons (name : String) (child : FS) (rest : Entries) : Entries
end

/-- entry.isDirectory() of a dirent. -/
def FS.isDirectory : FS → Bool
  | .file => false
  | .dir _ _ => true

/-- Look up a name among directory entries. -/
def Entries.findName : Entries → String → Option FS
  | .nil, _ => none
  | .cons n c rest, s => if n == s then some c else Entries.findName rest s

/-- Resolve an absolute segment path in the tree. -/
def FS.lookup : FS → Path → Option FS
  | node, [] => some node
  | .file, _ :: _ => none
  | .dir _ es, s :: rest =>
    match es.findName s with
    | some c => FS.lookup c rest
    | none => none

/-- The I/O environment of one evaluation: the directory tree plus the
two abstract glob-engine oracles (`glob` without and with
`absolute: true`); `Except.error ()` is a thrown glob-engine error. -/
structure IOEnv where
  fs : FS
  globE : Path → String → Except Unit (List String)
  globT : Path → String → Except Unit (List Path)

/-- fsp.access: resolves iff the path exists. -/
def accessFS (env : IOEnv) (p : Path) : Bool :=
  (FS.lookup env.fs p).isSome

/-- fsp.readdir at a path: fails on a missing path, a file, or an
unreadable directory. -/
def readdirAt (env : IOEnv) (p : Path) : Except Unit Entries :=
  match FS.lookup env.fs p with
  | some (.dir true es) => .ok es
  | _ => .error ()

/-! ## Evaluator: matchers and suppression checks (src/evaluator.js) -/

/-- A compiled ignore/skip pattern: `m` is the minimatch matcher on the
relative path, `dm` is the extra directory matcher compiled from the
pattern with its trailing recursive suffix stripped (present exactly
when the pattern ends in "/**"). -/
structure MatcherPair where
  pattern : String
  m : Path → Bool
  dm : Option (Path → Bool)

/-- Evaluator.RECURSIVE_SUFFIX. -/
def RECURSIVE_SUFFIX : String := "/**"

/-- Compile one pattern into its matcher pair; `mm` is the abstract
minimatch oracle (pattern → relative path → match). -/
def compileMatcher (mm : String → Path → Bool) (pattern : String) : MatcherPair :=
  { pattern := pattern
    m := mm pattern
    dm := if strEndsWith pattern RECURSIVE_SUFFIX
          then some (mm (strDropRight pattern RECURSIVE_SUFFIX.length))
          else none }

/-- The state of one Evaluator instance (caches omitted: they are pure
memoization). -/
structure Ev where
  rules : List Rule
  base : Path
  ignoreMatchers : List MatcherPair
  skipMatchers : List MatcherPair

/-- The Evaluator constructor: DSL ignore/skip rule targets are
prepended to the caller-supplied patterns, then each pattern is
compiled.  `base` is assumed to be an already-resolved absolute path
(the path.resolve call of the constructor). -/
def mkEvaluator (mm : String → Path → Bool) (rules : List Rule) (base : Path)
    (ignorePatterns skipPatterns : List String) : Ev :=
  { rules := rules
    base := base
    ignoreMatchers :=
      (((rules.filter (fun r => r.action == "ignore")).map Rule.target) ++ ignorePatterns).map
        (compileMatcher mm)
    skipMatchers :=
      (((rules.filter (fun r => r.action == "skip")).map Rule.target) ++ skipPatterns).map
        (compileMatcher mm) }

/-- All non-empty prefixes of the relative path parts, shortest first
(the incrementally built `currentPath` values of
Evaluator.checkParentDirectories). -/
def nonEmptyPrefixes (parts : Path) : List Path :=
  (List.range parts.length).map (fun i => parts.take (i + 1))

/-- Evaluator.checkParentDirectories: some plain matcher matches some
prefix of the relative path. -/
def checkParentDirectories (matchers : List MatcherPair) (parts : Path) : Bool :=
  matchers.any (fun mp => (nonEmptyPrefixes parts).any (fun pre => mp.m pre))

/-- The per-matcher body of the first loop of shouldIgnore /
shouldSkipTraversal: the directory matcher (when present), then the
plain matcher, against the whole relative path. -/
def matchersHit (matchers : List MatcherPair) (rel : Path) : Bool :=
  matchers.any (fun mp =>
    (match mp.dm with
     | some f => f rel
     | none => false) || mp.m rel)

/-- Evaluator.shouldIgnore (cache omitted). -/
def shouldIgnore (ev : Ev) (p : Path) : Bool :=
  let rel := relSegs ev.base p
  matchersHit ev.ignoreMatchers rel || checkParentDirectories ev.ignoreMatchers rel

/-- Evaluator.shouldSkipTraversal (cache omitted). -/
def shouldSkipTraversal (ev : Ev) (p : Path) : Bool :=
  let rel := relSegs ev.base p
  matchersHit ev.skipMatchers rel || checkParentDirectories ev.skipMatchers rel

/-- Evaluator.isInsideSkippedDirectory: some proper ancestor of the path
strictly below the base satisfies shouldSkipTraversal (the loop over
`parts.length - 1` incrementally joined ancestor paths). -/
def isInsideSkippedDirectory (ev : Ev) (p : Path) : Bool :=
  let rel := relSegs ev.base p
  ((List.range (rel.length - 1)).map (fun i => ev.base ++ rel.take (i + 1))).any
    (fun a => shouldSkipTraversal ev a)

/-- isSimplePattern: no glob metacharacter occurs in the pattern. -/
def isSimplePattern (pattern : String) : Bool :=
  !(pattern.toList.any (fun c =>
    c == '*' || c == '?' || c == '[' || c == ']' || c == '\x7b' || c == '\x7d'))

/-- path.join(dir, pattern) on segment lists (no `.`/`..` normalization;
the claims under proof do not involve such patterns). -/
def joinPath (d : Path) (pattern : String) : Path :=
  d ++ strSplitSlash pattern

/-- Evaluator.exists: a direct access check for simple patterns, the
glob oracle otherwise; every failure yields false. -/
def existsFn (env : IOEnv) (d : Path) (pattern : String) : Bool :=
  if isSimplePattern pattern then accessFS env (joinPath d pattern)
  else
    match env.globE d pattern with
    | .ok ms => decide (ms.length > 0)
    | .error _ => false

/-! ## Evaluator: traversal -/

mutual
/-- The shared recursive directory collector.  This is the body of both
Evaluator.getAllDirectories.collectDirs and the `children` collector of
Evaluator.getLocationDirs, whose source bodies are identical: descend
into child directories, skipping (and not descending into) any child
that matches the ignore or skip set; a directory that cannot be read
contributes no descendants but does not abort the walk. -/
def collectNode (ev : Ev) (p : Path) : FS → List Path
  | .file => []
  | .dir false _ => []
  | .dir true es => collectEntries ev p es
/-- Entry loop of the shared directory collector. -/
def collectEntries (ev : Ev) (p : Path) : Entries → List Path
  | .nil => []
  | .cons name child rest =>
    (if child.isDirectory then
      let full := p ++ [name]
      if shouldIgnore ev full || shouldSkipTraversal ev full then []
      else full :: collectNode ev full child
     else []) ++ collectEntries ev p rest
end

/-- Evaluator.getAllDirectories: the start directory followed by all
recursively collected descendants. -/
def getAllDirectories (ev : Ev) (env : IOEnv) (d : Path) : List Path :=
  d :: (match FS.lookup env.fs d with
        | some node => collectNode ev d node
        | none => [])

/-- The `parents` while-loop of Evaluator.getLocationDirs: successive
dirnames while the ancestor differs from its child and still starts
with the base directory. -/
def parentsChain (base : Path) (cur : Path) : List Path :=
  if h : cur.dropLast ≠ cur ∧ base.isPrefixOf cur.dropLast = true then
    cur.dropLast :: parentsChain base cur.dropLast
  else []
termination_by cur.length
decreasing_by
  have hne : cur ≠ [] := by
    intro hnil
    apply h.1
    rw [hnil]
    rfl
  have hpos : 0 < cur.length := List.length_pos.mpr hne
  simp only [List.length_dropLast]
  omega

/-- The `child` filter of Evaluator.getLocationDirs: immediate child
directories that are not ignored. -/
def childFilter (ev : Ev) (cur : Path) : Entries → List Path
  | .nil => []
  | .cons name child rest =>
    (if child.isDirectory && !(shouldIgnore ev (cur ++ [name])) then [cur ++ [name]] else []) ++
      childFilter ev cur rest

/-- All child directories of a directory listing, joined to the parent
(the filter-then-map of the `sibling` branch, before removing the
current directory). -/
def entryDirs (parentDir : Path) : Entries → List Path
  | .nil => []
  | .cons name child rest =>
    (if child.isDirectory then [parentDir ++ [name]] else []) ++ entryDirs parentDir rest

/-- Evaluator.getLocationDirs. -/
def getLocationDirs (ev : Ev) (env : IOEnv) (currentDir : Path) (location : String) : List Path :=
  if location == "here" then [currentDir]
  else if location == "parent" then
    if currentDir.dropLast == currentDir || !(ev.base.isPrefixOf currentDir.dropLast) then []
    else [currentDir.dropLast]
  else if location == "parents" then parentsChain ev.base currentDir
  else if location == "child" then
    match readdirAt env currentDir with
    | .error _ => []
    | .ok es => childFilter ev currentDir es
  else if location == "children" then
    match FS.lookup env.fs currentDir with
    | some node => collectNode ev currentDir node
    | none => []
  else if location == "sibling" then
    if currentDir.dropLast == currentDir || !(ev.base.isPrefixOf currentDir.dropLast) then []
    else
      match readdirAt env currentDir.dropLast with
      | .error _ => []
      | .ok es => (entryDirs currentDir.dropLast es).filter (fun d => d != currentDir)
  else [currentDir]

/-! ## Evaluator: condition evaluation

The Bool result is paired with the trace of `exists(dir, pattern)`
probes, in the order the sequential source performs them; the trace is
the effect model that makes short-circuiting observable. -/

/-- The `for (const dir of dirs)` loop of the `exists` branch of
Evaluator.evaluatePredicate: probe each candidate directory until the
first hit. -/
def existsAny (env : IOEnv) (pattern : String) : List Path → Bool × List (Path × String)
  | [] => (false, [])
  | d :: rest =>
    if existsFn env d pattern then (true, [(d, pattern)])
    else
      let r := existsAny env pattern rest
      (r.1, (d, pattern) :: r.2)

/-- Evaluator.evaluatePredicate: a `not` node with a null negated field
is false; `exists` probes the location directories; any other node
shape falls through to false. -/
def evaluatePredicateF (env : IOEnv) (ev : Ev) (currentDir : Path) :
    Node → Bool × List (Path × String)
  | .notN .nullN => (false, [])
  | .notN n =>
    let r := evaluatePredicateF env ev currentDir n
    (!r.1, r.2)
  | .existsN location pattern =>
    existsAny env (pattern.getD ("")) (getLocationDirs ev env currentDir location)
  | _ => (false, [])

/-- Evaluator.evaluateCondition: a `predicate` node with a null
predicate field is true; an `and` node with a null side is false,
otherwise the left side (always treated as a predicate) short-circuits,
and the right side is dispatched by its `type` field — recursed into as
a condition when it looks like one ("and"/"predicate"), treated as a
predicate otherwise; any other node shape falls through to false. -/
def evaluateConditionF (env : IOEnv) (ev : Ev) (currentDir : Path) :
    Node → Bool × List (Path × String)
  | .predN .nullN => (true, [])
  | .predN p => evaluatePredicateF env ev currentDir p
  | .andN .nullN _ => (false, [])
  | .andN _ .nullN => (false, [])
  | .andN l r =>
    let lres := evaluatePredicateF env ev currentDir l
    if !lres.1 then (false, lres.2)
    else
      let rres :=
        if r.typeStr == "and" || r.typeStr == "predicate" then
          evaluateConditionF env ev currentDir r
        else evaluatePredicateF env ev currentDir r
      (rres.1, lres.2 ++ rres.2)
  | _ => (false, [])

/-! ## Evaluator: target search and evaluation -/

/-- Observable notifications of the evaluator, in emission order. -/
inductive Event where
  | scanStart (baseDir : Path) (rulesCount : Nat)
  | scanDirectory (directory : Path)
  | fileFound (path : Path) (rule : Rule) (directory : Path)
  | errorEv (path : Path) (phase : String)
  | fileDeleted (path : Path) (isDirectory : Bool)
  | scanComplete (baseDir : Path) (filesFound : Nat) (files : List Path)
deriving DecidableEq

/-- Whether an event is a file:deleted notification. -/
def Event.isDeleted : Event → Bool
  | .fileDeleted _ _ => true
  | _ => false

/-- The glob-match loop of Evaluator.findTargets: drop ignored matches
and matches strictly inside a skipped directory, keep the rest (with a
file:found event each). -/
def globFilter (ev : Ev) (rule : Rule) (d : Path) : List Path → List Path × List Event
  | [] => ([], [])
  | m :: rest =>
    if shouldIgnore ev m then globFilter ev rule d rest
    else if isInsideSkippedDirectory ev m then globFilter ev rule d rest
    else
      let r := globFilter ev rule d rest
      (m :: r.1, .fileFound m rule d :: r.2)

/-- Evaluator.findTargets: gate on the rule condition; a simple pattern
is resolved by a direct access check, others by the glob oracle; a glob
engine failure emits one evaluation-phase error event and yields no
targets. -/
def findTargetsF (env : IOEnv) (ev : Ev) (rule : Rule) (d : Path) : List Path × List Event :=
  let conditionMet :=
    match rule.condition with
    | some c => (evaluateConditionF env ev d c).1
    | none => true
  if !conditionMet then ([], [])
  else if isSimplePattern rule.target then
    let fullPath := joinPath d rule.target
    if accessFS env fullPath then
      if !(shouldIgnore ev fullPath) && !(isInsideSkippedDirectory ev fullPath) then
        ([fullPath], [.fileFound fullPath rule d])
      else ([], [])
    else ([], [])
  else
    match env.globT d rule.target with
    | .error _ => ([], [.errorEv d ("evaluation")])
    | .ok ms => globFilter ev rule d ms

/-- The inner rule loop of Evaluator.evaluate: findTargets for every
delete rule, concatenating targets and events in order. -/
def rulesPass (env : IOEnv) (ev : Ev) (d : Path) : List Rule → List Path × List Event
  | [] => ([], [])
  | rule :: rest =>
    let hd := if rule.action == "delete" then findTargetsF env ev rule d else ([], [])
    let tl := rulesPass env ev d rest
    (hd.1 ++ tl.1, hd.2 ++ tl.2)

/-- The outer directory loop of Evaluator.evaluate: a scan:directory
event per visited directory, then the rule loop. -/
def dirsPass (env : IOEnv) (ev : Ev) : List Path → List Path × List Event
  | [] => ([], [])
  | d :: rest =>
    let r := rulesPass env ev d ev.rules
    let tl := dirsPass env ev rest
    (r.1 ++ tl.1, (Event.scanDirectory d :: r.2) ++ tl.2)

/-- JS `Set.add`: keep the first occurrence, insertion order. -/
def addTarget (acc : List Path) (t : Path) : List Path :=
  if acc.contains t then acc else acc ++ [t]

/-- Insert each found target into the accumulating set, in order. -/
def addTargets (acc : List Path) (ts : List Path) : List Path :=
  ts.foldl addTarget acc

/-- Evaluator.evaluate.  The dryRun parameter is accepted but never read
by the source body. -/
def evaluateEv (env : IOEnv) (ev : Ev) (dryRun : Bool) : List Path × List Event :=
  let dirs := getAllDirectories ev env ev.base
  let r := dirsPass env ev dirs
  let targetsList := addTargets [] r.1
  (targetsList,
   (Event.scanStart ev.base ev.rules.length :: r.2) ++
     [Event.scanComplete ev.base targetsList.length targetsList])

/-- The module-level evaluate function: construct an Evaluator and run
it. -/
def evaluateFn (mm : String → Path → Bool) (rules : List Rule) (baseDir : Path)
    (dryRun : Bool) (ignorePatterns skipPatterns : List String) (env : IOEnv) :
    List Path × List Event :=
  evaluateEv env (mkEvaluator mm rules baseDir ignorePatterns skipPatterns) dryRun

/-! ## Evaluator: execution (Evaluator.execute)

The mutable filesystem of the deletion phase is a flat list of
(existing path, isDirectory) entries.  `failsOn` is the failure oracle:
a path on which the stat/rm/unlink syscall of the source would throw. -/

abbrev ExecFS := List (Path × Bool)

/-- fsp.access during execution. -/
def accessE (fs : ExecFS) (p : Path) : Bool :=
  fs.any (fun e => e.1 == p)

/-- stats.isDirectory() of the entry at a path. -/
def statIsDir (fs : ExecFS) (p : Path) : Bool :=
  match fs.find? (fun e => e.1 == p) with
  | some e => e.2
  | none => false

/-- fsp.rm with recursive:true — the path and everything beneath it. -/
def rmTreeE (fs : ExecFS) (p : Path) : ExecFS :=
  fs.filter (fun e => !(p.isPrefixOf e.1))

/-- fsp.unlink — exactly the path. -/
def unlinkE (fs : ExecFS) (p : Path) : ExecFS :=
  fs.filter (fun e => !(e.1 == p))

/-- Path depth used by the execute sort.  The source splits the
separator-joined absolute path, which yields the segment count plus a
constant leading empty component; the constant offset does not affect
the comparator. -/
def pathDepth (p : Path) : Nat := p.length

/-- Stable insertion keeping deeper paths first: a target is placed
after every already-placed strictly deeper path (models the stable
Array.prototype.sort with comparator depthB - depthA). -/
def insertByDepth (t : Path) : List Path → List Path
  | [] => [t]
  | x :: xs => if pathDepth t < pathDepth x then x :: insertByDepth t xs else t :: x :: xs

/-- The depth sort of Evaluator.execute (deepest first, stable). -/
def sortTargets (targets : List Path) : List Path :=
  targets.foldr insertByDepth []

/-- The pairwise order of the execute sort: later targets are never
deeper than earlier ones. -/
def depthGE (a b : Path) : Prop := pathDepth b ≤ pathDepth a

/-- State threaded through the deletion loop. -/
structure ExecState where
  fs : ExecFS
  deleted : List Path
  errors : List (Path × String)
deriving DecidableEq

/-- One iteration of the deletion loop: a target that no longer exists
is skipped silently; a failing syscall records a per-path error; else
the path is removed (recursively for a directory) and recorded as
deleted. -/
def executeStep (failsOn : Path → Bool) (st : ExecState) (target : Path) : ExecState :=
  if !(accessE st.fs target) then st
  else if failsOn target then { st with errors := st.errors ++ [(target, ("deletion failed"))] }
  else
    let isDir := statIsDir st.fs target
    let fs2 := if isDir then rmTreeE st.fs target else unlinkE st.fs target
    { fs := fs2, deleted := st.deleted ++ [target], errors := st.errors }

/-- Evaluator.execute: sort deepest-first, then best-effort deletion. -/
def executeF (failsOn : Path → Bool) (fs : ExecFS) (targets : List Path) :
    List Path × List (Path × String) :=
  let finalSt := (sortTargets targets).foldl (executeStep failsOn) ⟨fs, [], []⟩
  (finalSt.deleted, finalSt.errors)

/-! ## index.js findTargets -/

/-- The aggregated ValidationError thrown by findTargets. -/
structure VError where
  message : String
  validationErrors : List (Rule × String)
deriving DecidableEq

/-- findTargets (src/index.js): unless skipValidation is set, an invalid
rule set raises a single aggregated ValidationError before any
evaluator is constructed; otherwise every base directory is evaluated
and the target sets are unioned in order. -/
def findTargetsIdx (mm : String → Path → Bool) (env : IOEnv) (rules : List Rule)
    (baseDirs : List Path) (ignorePatterns skipPatterns : List String)
    (skipValidation : Bool) : Except VError (List Path) :=
  if !skipValidation && !(validateRules rules).valid then
    let v := validateRules rules
    .error
      { message := ("Rule validation failed:\n") ++
          String.intercalate ("\n") (v.errors.map (fun e => e.2))
        validationErrors := v.errors }
  else
    .ok (baseDirs.foldl
      (fun acc d => addTargets acc (evaluateFn mm rules d true ignorePatterns skipPatterns env).1)
      [])

/-! ## Semantic hypothesis on compiled matchers

The ignore/skip matchers are abstract in the embedding.  The one
minimatch fact some theorems need is: when a pattern ends in "/**", its
directory matcher (pattern with the suffix stripped) accepting a
relative path means the full pattern matches everything strictly
beneath that path.  This is exactly why the source compiles the second
matcher. -/

/-- The directory-matcher/matcher coherence property of matchers
compiled from a pattern with the recursive suffix. -/
def dmSound (matchers : List MatcherPair) : Prop :=
  ∀ mp ∈ matchers, ∀ f, mp.dm = some f →
    ∀ rel rest : Path, f rel = true → rest ≠ [] → mp.m (rel ++ rest) = true

/-! ## Concrete example instances (used by closed witness statements) -/

/-- A concrete minimatch oracle: the pattern "node_modules" matches
exactly the relative path ["node_modules"]. -/
def exMM : String → Path → Bool := fun pattern rel =>
  pattern == "node_modules" && rel == [("node_modules")]

/-- Rules of the skip scenario of the spec: delete node_modules, and skip
node_modules. -/
def exRules : List Rule :=
  [⟨("delete"), ("node_modules"), none⟩, ⟨("skip"), ("node_modules"), none⟩]

/-- A directory tree: /ws/node_modules/pkg and /ws/src. -/
def exFS : FS :=
  .dir true (.cons ("ws")
    (.dir true (.cons ("node_modules") (.dir true (.cons ("pkg") .file .nil))
      (.cons ("src") (.dir true .nil) .nil))) .nil)

/-- Environment over `exFS` whose glob oracles succeed with no
matches. -/
def exEnv : IOEnv := { fs := exFS, globE := fun _ _ => .ok [], globT := fun _ _ => .ok [] }

/-- Environment over `exFS` whose glob oracles always fail. -/
def exFailEnv : IOEnv :=
  { fs := exFS, globE := fun _ _ => .error (), globT := fun _ _ => .error () }

/-- The evaluator of the skip scenario, based at /ws. -/
def exEv : Ev := mkEvaluator exMM exRules [("ws")] [] []

/-! # Theorems -/

/-! ## Validator (claim C2) -/

theorem isDangerousPattern_iff (t : String) :
    isDangerousPattern t = true ↔
      (t = "*" ∨ t = "**" ∨ t = "*.*" ∨ t = "**/*" ∨ t = "**/*.*") := by
  simp only [isDangerousPattern, DANGEROUS_PATTERNS]
  split_ifs with h1 h2 <;> simp_all <;> tauto

/-- C2: validateRule reports a rule invalid exactly when its action is
delete, its target is one of the five dangerous patterns, and its
condition is null; a conditioned dangerous delete and every
ignore/skip rule are valid. -/
theorem validateRule_invalid_iff (r : Rule) :
    (validateRule r).valid = false ↔
      (r.action = "delete" ∧
       (r.target = "*" ∨ r.target = "**" ∨ r.target = "*.*" ∨
        r.target = "**/*" ∨ r.target = "**/*.*") ∧
       r.condition = none) := by
  rcases r with ⟨a, t, c⟩
  simp only [validateRule]
  split_ifs with h1 h2 h3
  · simp only [bne_iff_ne, ne_eq] at h1
    simp_all
  · simp only [Option.isSome_iff_ne_none] at h3
    simp_all
  · simp only [bne_iff_ne, ne_eq, not_not] at h1
    simp only [Option.isSome_iff_ne_none, not_not] at h3
    have hd := (isDangerousPattern_iff t).mp h2
    simp_all
  · have := (not_iff_not.mpr (isDangerousPattern_iff t)).mp (by simpa using h2)
    simp_all

/-! ## Execution (claim C3) -/

theorem insertByDepth_perm (t : Path) (xs : List Path) :
    List.Perm (insertByDepth t xs) (t :: xs) := by
  induction xs with
  | nil => rfl
  | cons x xs ih =>
    simp only [insertByDepth]
    split_ifs with h
    · exact (ih.cons x).trans (List.Perm.swap t x xs)
    · exact List.Perm.refl _

theorem sortTargets_perm (ts : List Path) : List.Perm (sortTargets ts) ts := by
  induction ts with
  | nil => rfl
  | cons t ts ih =>
    have : sortTargets (t :: ts) = insertByDepth t (sortTargets ts) := rfl
    rw [this]
    exact (insertByDepth_perm t (sortTargets ts)).trans (ih.cons t)

theorem pairwise_insertByDepth {t : Path} {xs : List Path}
    (h : xs.Pairwise depthGE) : (insertByDepth t xs).Pairwise depthGE := by
  induction xs with
  | nil => simp [insertByDepth, depthGE]
  | cons x xs ih =>
    simp only [insertByDepth]
    obtain ⟨hx, hxs⟩ := List.pairwise_cons.mp h
    split_ifs with hlt
    · refine List.Pairwise.cons ?_ (ih hxs)
      intro y hy
      have hy' : y ∈ t :: xs := (insertByDepth_perm t xs).mem_iff.mp hy
      rcases List.mem_cons.mp hy' with rfl | hyx
      · exact le_of_lt hlt
      · exact hx y hyx
    · refine List.Pairwise.cons ?_ h
      intro y hy
      rcases List.mem_cons.mp hy with rfl | hyx
      · exact Nat.le_of_not_lt hlt
      · exact le_trans (hx y hyx) (Nat.le_of_not_lt hlt)

theorem sortTargets_sorted (ts : List Path) : (sortTargets ts).Pairwise depthGE := by
  induction ts with
  | nil => simp [sortTargets]
  | cons t ts ih => exact pairwise_insertByDepth ih

/-- C3: execute processes targets deepest-first (the processed list is
a permutation of the input, pairwise non-increasing in segment depth);
a target that no longer exists at its turn is skipped silently, leaving
the state — deleted list, error list and filesystem — unchanged; and
executing a set holding a directory and a file beneath it deletes the
file then the directory with an empty error list. -/
theorem execute_order_and_missing_skip :
    (∀ ts : List Path,
      List.Perm (sortTargets ts) ts ∧ (sortTargets ts).Pairwise depthGE) ∧
    (∀ (f : Path → Bool) (st : ExecState) (t : Path),
      accessE st.fs t = false → executeStep f st t = st) ∧
    (executeF (fun _ => false)
      [([("tmp"), ("build")], true), ([("tmp"), ("build"), ("main.o")], false)]
      [[("tmp"), ("build")], [("tmp"), ("build"), ("main.o")]] =
      ([[("tmp"), ("build"), ("main.o")], [("tmp"), ("build")]], [])) := by
  refine ⟨fun ts => ⟨sortTargets_perm ts, sortTargets_sorted ts⟩, ?_, by decide⟩
  intro f st t h
  simp [executeStep, h]

/-- Witness for C3: a missing target is skipped with no error recorded. -/
theorem execute_missing_skip_witness :
    executeStep (fun _ => false) ⟨[], [], []⟩ [("x")] = ⟨[], [], []⟩ :=
  execute_order_and_missing_skip.2.1 (fun _ => false) ⟨[], [], []⟩ [("x")] (by decide)

/-! ## Event shapes and dryRun purity (claim C10) -/

theorem globFilter_no_deleted (ev : Ev) (rule : Rule) (d : Path) :
    ∀ ms, ∀ e ∈ (globFilter ev rule d ms).2, e.isDeleted = false := by
  intro ms
  induction ms with
  | nil => simp [globFilter]
  | cons m rest ih =>
    intro e he
    simp only [globFilter] at he
    split_ifs at he with h1 h2
    · exact ih e he
    · exact ih e he
    · rcases List.mem_cons.mp he with rfl | hmem
      · rfl
      · exact ih e hmem

theorem findTargetsF_no_deleted (env : IOEnv) (ev : Ev) (rule : Rule) (d : Path) :
    ∀ e ∈ (findTargetsF env ev rule d).2, e.isDeleted = false := by
  intro e he
  simp only [findTargetsF] at he
  split_ifs at he with h1 h2 h3 h4
  · simp at he
  · rcases List.mem_singleton.mp he with rfl
    rfl
  · simp at he
  · simp at he
  · revert he
    cases env.globT d rule.target with
    | error u =>
      intro he
      rcases List.mem_singleton.mp he with rfl
      rfl
    | ok ms =>
      intro he
      exact globFilter_no_deleted ev rule d ms e he

theorem rulesPass_no_deleted (env : IOEnv) (ev : Ev) (d : Path) :
    ∀ rs, ∀ e ∈ (rulesPass env ev d rs).2, e.isDeleted = false := by
  intro rs
  induction rs with
  | nil => simp [rulesPass]
  | cons rule rest ih =>
    intro e he
    simp only [rulesPass] at he
    rcases List.mem_append.mp he with hmem | hmem
    · revert hmem
      split_ifs with h
      · exact findTargetsF_no_deleted env ev rule d e
      · simp
    · exact ih e hmem

theorem dirsPass_no_deleted (env : IOEnv) (ev : Ev) :
    ∀ ds, ∀ e ∈ (dirsPass env ev ds).2, e.isDeleted = false := by
  intro ds
  induction ds with
  | nil => simp [dirsPass]
  | cons d rest ih =>
    intro e he
    simp only [dirsPass] at he
    rcases List.mem_append.mp he with hmem | hmem
    · rcases List.mem_cons.mp hmem with rfl | hmem2
      · rfl
      · exact rulesPass_no_deleted env ev d ev.rules e hmem2
    · exact ih e hmem

/-- C10: Evaluator.evaluate accepts but never reads its dryRun
argument — the result (targets and all emitted notifications) is
identical for true and false, for the method and for the module-level
wrapper — and its event stream contains no file:deleted notification:
the scan phase deletes nothing. -/
theorem evaluate_dryRun_pure :
    (∀ env ev, evaluateEv env ev true = evaluateEv env ev false) ∧
    (∀ mm rules baseDir igP skP env,
      evaluateFn mm rules baseDir true igP skP env =
        evaluateFn mm rules baseDir false igP skP env) ∧
    (∀ env ev dr, ∀ e ∈ (evaluateEv env ev dr).2, e.isDeleted = false) := by
  refine ⟨fun env ev => rfl, fun mm rules baseDir igP skP env => rfl, ?_⟩
  intro env ev dr e he
  simp only [evaluateEv, List.mem_cons, List.mem_append, List.mem_singleton] at he
  rcases he with (rfl | he2) | (rfl | hfalse)
  · rfl
  · exact dirsPass_no_deleted env ev _ e he2
  · rfl
  · simp at hfalse

/-- Witness for C10: a concrete emitted event of a concrete evaluation
is not a deletion. -/
theorem evaluate_dryRun_pure_witness :
    (Event.scanStart [("ws")] 2).isDeleted = false :=
  evaluate_dryRun_pure.2.2 exEnv exEv true (Event.scanStart [("ws")] 2) (by decide)

/-! ## Evaluation-phase error tolerance (claim C9) -/

/-- C9: evaluation-phase filesystem failures never abort the scan —
the exists probe returns false when its direct access fails and when
its glob call fails; an unreadable directory contributes no descendants
but the walk continues past it (both in getAllDirectories and in the
children location collector, which share this collector); an unreadable
directory yields no child locations; and a glob failure in findTargets
yields one evaluation-phase error event and an empty target list
instead of aborting. -/
theorem evaluation_errors_swallowed :
    (∀ env d pat, isSimplePattern pat = true →
      accessFS env (joinPath d pat) = false → existsFn env d pat = false) ∧
    (∀ env d pat, isSimplePattern pat = false →
      env.globE d pat = .error () → existsFn env d pat = false) ∧
    (∀ ev p es, collectNode ev p (.dir false es) = []) ∧
    (∀ ev p name es rest,
      shouldIgnore ev (p ++ [name]) = false →
      shouldSkipTraversal ev (p ++ [name]) = false →
      collectEntries ev p (.cons name (.dir false es) rest) =
        (p ++ [name]) :: collectEntries ev p rest) ∧
    (∀ ev env cur, readdirAt env cur = .error () →
      getLocationDirs ev env cur ("child") = []) ∧
    (∀ env ev rule d, rule.condition = none →
      isSimplePattern rule.target = false →
      env.globT d rule.target = .error () →
      findTargetsF env ev rule d = ([], [Event.errorEv d ("evaluation")])) := by
  refine ⟨?_, ?_, ?_, ?_, ?_, ?_⟩
  · intro env d pat h1 h2
    simp [existsFn, h1, h2]
  · intro env d pat h1 h2
    simp [existsFn, h1, h2]
  · intro ev p es
    rfl
  · intro ev p name es rest h1 h2
    simp [collectEntries, collectNode, FS.isDirectory, h1, h2]
  · intro ev env cur h
    simp [getLocationDirs, h]
  · intro env ev rule d hc h1 h2
    simp [findTargetsF, hc, h1, h2]

/-- Witness for C9: a failing glob call makes the exists probe false on
a concrete environment. -/
theorem evaluation_errors_swallowed_witness :
    existsFn exFailEnv [("ws")] ("*.log") = false :=
  evaluation_errors_swallowed.2.1 exFailEnv [("ws")] ("*.log") (by decide) rfl

/-! ## Validation gating in index.findTargets (claim C8) -/

/-- C8: with skipValidation unset, an invalid rule set makes
findTargets fail with the single aggregated ValidationError carrying
every violation, and the failure is independent of the whole
filesystem/matcher environment and base-directory list (no directory
walk contributes); with skipValidation set, evaluation proceeds
unconditionally to the evaluated target union. -/
theorem findTargets_validation_gate :
    (∀ mm env rules dirs igP skP,
      (validateRules rules).valid = false →
      findTargetsIdx mm env rules dirs igP skP false =
        .error
          { message := ("Rule validation failed:\n") ++
              String.intercalate ("\n") ((validateRules rules).errors.map (fun e => e.2))
            validationErrors := (validateRules rules).errors }) ∧
    (∀ mm mm2 env env2 rules dirs dirs2 igP igP2 skP skP2,
      (validateRules rules).valid = false →
      findTargetsIdx mm env rules dirs igP skP false =
        findTargetsIdx mm2 env2 rules dirs2 igP2 skP2 false) ∧
    (∀ mm env rules dirs igP skP,
      findTargetsIdx mm env rules dirs igP skP true =
        .ok (dirs.foldl
          (fun acc d => addTargets acc (evaluateFn mm rules d true igP skP env).1) [])) := by
  refine ⟨?_, ?_, ?_⟩
  · intro mm env rules dirs igP skP h
    simp [findTargetsIdx, h]
  · intro mm mm2 env env2 rules dirs dirs2 igP igP2 skP skP2 h
    simp [findTargetsIdx, h]
  · intro mm env rules dirs igP skP
    simp [findTargetsIdx]

/-- Witness for C8: an unconditioned `delete *` rule set fails
validation on a concrete environment. -/
theorem findTargets_validation_gate_witness :
    findTargetsIdx exMM exEnv [⟨("delete"), ("*"), none⟩] [[("ws")]] [] [] false =
      .error
        { message := ("Rule validation failed:\n") ++
            String.intercalate ("\n")
              ((validateRules [⟨("delete"), ("*"), none⟩]).errors.map (fun e => e.2))
          validationErrors := (validateRules [⟨("delete"), ("*"), none⟩]).errors } :=
  findTargets_validation_gate.1 exMM exEnv [⟨("delete"), ("*"), none⟩] [[("ws")]] [] []
    (by decide)

/-! ## Condition evaluation (claim C5) -/

theorem evalCond_andN (env : IOEnv) (ev : Ev) (d : Path) (l r : Node)
    (hl : l ≠ Node.nullN) (hr : r ≠ Node.nullN) :
    evaluateConditionF env ev d (.andN l r) =
      (let lres := evaluatePredicateF env ev d l
       if !lres.1 then (false, lres.2)
       else
         let rres :=
           if r.typeStr == "and" || r.typeStr == "predicate" then
             evaluateConditionF env ev d r
           else evaluatePredicateF env ev d r
         (rres.1, lres.2 ++ rres.2)) := by
  cases l <;> cases r <;> first | rfl | exact absurd rfl hl | exact absurd rfl hr

theorem evalCond_andN_false (env : IOEnv) (ev : Ev) (d : Path) (l r : Node)
    (hl : l ≠ Node.nullN) (hr : r ≠ Node.nullN)
    (hfalse : (evaluatePredicateF env ev d l).1 = false) :
    evaluateConditionF env ev d (.andN l r) =
      (false, (evaluatePredicateF env ev d l).2) := by
  rw [evalCond_andN env ev d l r hl hr]
  simp [hfalse]

theorem evalCond_andN_true (env : IOEnv) (ev : Ev) (d : Path) (l r : Node)
    (hl : l ≠ Node.nullN) (hr : r ≠ Node.nullN)
    (htrue : (evaluatePredicateF env ev d l).1 = true) :
    evaluateConditionF env ev d (.andN l r) =
      ((if r.typeStr == "and" || r.typeStr == "predicate" then
          evaluateConditionF env ev d r
        else evaluatePredicateF env ev d r).1,
       (evaluatePredicateF env ev d l).2 ++
         (if r.typeStr == "and" || r.typeStr == "predicate" then
            evaluateConditionF env ev d r
          else evaluatePredicateF env ev d r).2) := by
  rw [evalCond_andN env ev d l r hl hr]
  simp [htrue]

theorem evalCond_predN (env : IOEnv) (ev : Ev) (d : Path) (p : Node)
    (hp : p ≠ Node.nullN) :
    evaluateConditionF env ev d (.predN p) = evaluatePredicateF env ev d p := by
  cases p <;> first | rfl | exact absurd rfl hp

theorem predShape_ne_null {q : Node}
    (hq : q.typeStr = "exists" ∨ q.typeStr = "not") : q ≠ Node.nullN := by
  rcases hq with h | h <;> intro hn <;> subst hn <;> simp [Node.typeStr] at h

theorem predShape_not_cond {q : Node}
    (hq : q.typeStr = "exists" ∨ q.typeStr = "not") :
    (q.typeStr == "and" || q.typeStr == "predicate") = false := by
  rcases hq with h | h <;> simp [h]

theorem chain_eval (env : IOEnv) (ev : Ev) (d : Path) :
    ∀ (rest : List Node) (q : Node),
      (q.typeStr = "exists" ∨ q.typeStr = "not") →
      (∀ p ∈ rest, p.typeStr = "exists" ∨ p.typeStr = "not") →
      ((if (buildChain q rest).typeStr == "and" || (buildChain q rest).typeStr == "predicate"
        then evaluateConditionF env ev d (buildChain q rest)
        else evaluatePredicateF env ev d (buildChain q rest)).1 = true ↔
        ∀ p ∈ q :: rest, (evaluatePredicateF env ev d p).1 = true) := by
  intro rest
  induction rest with
  | nil =>
    intro q hq _
    simp [buildChain, predShape_not_cond hq]
  | cons q2 rest2 ih =>
    intro q hq hrest
    have hq2 : q2.typeStr = "exists" ∨ q2.typeStr = "not" := hrest q2 (by simp)
    have hrest2 : ∀ p ∈ rest2, p.typeStr = "exists" ∨ p.typeStr = "not" :=
      fun p hp => hrest p (by simp [hp])
    have hq_ne : q ≠ Node.nullN := predShape_ne_null hq
    have hchain_ne : buildChain q2 rest2 ≠ Node.nullN := by
      cases rest2 with
      | nil => exact predShape_ne_null hq2
      | cons a b => simp [buildChain]
    have hbc : buildChain q (q2 :: rest2) = .andN q (buildChain q2 rest2) := rfl
    rw [hbc]
    have hcnd : ((Node.andN q (buildChain q2 rest2)).typeStr == "and" ||
        (Node.andN q (buildChain q2 rest2)).typeStr == "predicate") = true := by
      simp [Node.typeStr]
    rw [if_pos hcnd]
    have hrec := ih q2 hq2 hrest2
    cases hlb : (evaluatePredicateF env ev d q).1 with
    | true =>
      rw [evalCond_andN_true env ev d _ _ hq_ne hchain_ne hlb]
      constructor
      · intro hres p hp
        rcases List.mem_cons.mp hp with rfl | hp2
        · exact hlb
        · exact (hrec.mp hres) p hp2
      · intro hall
        exact hrec.mpr (fun p hp => hall p (List.mem_cons_of_mem _ hp))
    | false =>
      rw [evalCond_andN_false env ev d _ _ hq_ne hchain_ne hlb]
      constructor
      · intro hres
        exact absurd hres (by simp)
      · intro hall
        exact absurd (hall q (by simp)) (by simp [hlb])

/-- C5: an and-condition short-circuits — when the left predicate is
false the condition is false and its probe trace is exactly that of the
left side (nothing of the right side runs); when the left is true the
value of the condition is that of the right side, recursed into as a nested
condition when its type field says "and"/"predicate" and treated as a
leaf predicate otherwise; consequently the parsed right-nested chain of
and-joined predicates is true at a directory exactly when every
predicate of the chain is. -/
theorem and_condition_semantics :
    (∀ env ev d l r, r ≠ Node.nullN →
      (evaluatePredicateF env ev d l).1 = false →
      evaluateConditionF env ev d (.andN l r) =
        (false, (evaluatePredicateF env ev d l).2)) ∧
    (∀ env ev d l r,
      (evaluatePredicateF env ev d l).1 = true →
      (evaluateConditionF env ev d (.andN l r)).1 =
        (if (r.typeStr == "and" || r.typeStr == "predicate") = true
         then (evaluateConditionF env ev d r).1
         else (evaluatePredicateF env ev d r).1)) ∧
    (∀ env ev d ps, ps ≠ [] →
      (∀ p ∈ ps, p.typeStr = "exists" ∨ p.typeStr = "not") →
      ((evaluateConditionF env ev d (buildCondition ps)).1 = true ↔
        ∀ p ∈ ps, (evaluatePredicateF env ev d p).1 = true)) := by
  refine ⟨?_, ?_, ?_⟩
  · intro env ev d l r hr hfalse
    by_cases hl : l = Node.nullN
    · subst hl
      have hnull : evaluatePredicateF env ev d Node.nullN = (false, []) := rfl
      rw [hnull]
      cases r <;> first | exact absurd rfl hr | rfl
    · exact evalCond_andN_false env ev d l r hl hr hfalse
  · intro env ev d l r htrue
    by_cases hl : l = Node.nullN
    · subst hl
      simp [show evaluatePredicateF env ev d Node.nullN = (false, []) from rfl] at htrue
    · by_cases hr : r = Node.nullN
      · subst hr
        have h1 : evaluateConditionF env ev d (.andN l Node.nullN) = (false, []) := by
          cases l <;> first | exact absurd rfl hl | rfl
        have h2 : evaluatePredicateF env ev d Node.nullN = (false, []) := rfl
        simp [h1, h2, Node.typeStr]
      · rw [evalCond_andN_true env ev d l r hl hr htrue]
        cases hc : (r.typeStr == "and" || r.typeStr == "predicate") <;> simp [hc]
  · intro env ev d ps hne hshapes
    cases ps with
    | nil => exact absurd rfl hne
    | cons p rest =>
      have hp : p.typeStr = "exists" ∨ p.typeStr = "not" := hshapes p (by simp)
      cases rest with
      | nil =>
        rw [show buildCondition [p] = .predN p from rfl,
          evalCond_predN env ev d p (predShape_ne_null hp)]
        simp
      | cons q rest2 =>
        have hq : q.typeStr = "exists" ∨ q.typeStr = "not" := hshapes q (by simp)
        have hrest2 : ∀ x ∈ rest2, x.typeStr = "exists" ∨ x.typeStr = "not" :=
          fun x hx => hshapes x (by simp [hx])
        have hchain_ne : buildChain q rest2 ≠ Node.nullN := by
          cases rest2 with
          | nil => exact predShape_ne_null hq
          | cons a b => simp [buildChain]
        rw [show buildCondition (p :: q :: rest2) = .andN p (buildChain q rest2) from rfl]
        have hrec := chain_eval env ev d rest2 q hq hrest2
        cases hlb : (evaluatePredicateF env ev d p).1 with
        | true =>
          rw [evalCond_andN_true env ev d _ _ (predShape_ne_null hp) hchain_ne hlb]
          constructor
          · intro hres x hx
            rcases List.mem_cons.mp hx with rfl | hx2
            · exact hlb
            · exact (hrec.mp hres) x hx2
          · intro hall
            exact hrec.mpr (fun x hx => hall x (List.mem_cons_of_mem _ hx))
        | false =>
          rw [evalCond_andN_false env ev d _ _ (predShape_ne_null hp) hchain_ne hlb]
          constructor
          · intro hres
            exact absurd hres (by simp)
          · intro hall
            exact absurd (hall p (by simp)) (by simp [hlb])

/-- Witness for C5: the chain property at a concrete two-predicate
chain over the example environment. -/
theorem and_condition_semantics_witness :
    (evaluateConditionF exEnv exEv [("ws")]
        (buildCondition
          [.existsN ("here") (some ("node_modules")),
           .notN (.existsN ("here") (some ("missing")))])).1 = true ↔
      ∀ p ∈ [Node.existsN ("here") (some ("node_modules")),
             Node.notN (.existsN ("here") (some ("missing")))],
        (evaluatePredicateF exEnv exEv [("ws")] p).1 = true :=
  and_condition_semantics.2.2 exEnv exEv [("ws")]
    [.existsN ("here") (some ("node_modules")), .notN (.existsN ("here") (some ("missing")))]
    (by decide) (by decide)

/-! ## Parser invariant (claim C6) -/

theorem parseRuleF_condition_shape {toks : List Token} {r : Rule} {rest : List Token}
    (h : parseRuleF toks = .ok (some r, rest)) :
    r.action = "delete" ∨ r.condition = none := by
  cases toks with
  | nil => simp [parseRuleF] at h
  | cons t rest0 =>
    simp only [parseRuleF] at h
    split_ifs at h with h1 h2
    · simp at h
    · cases rest0 with
      | nil => simp at h
      | cons tt rest2 =>
        simp only at h
        split_ifs at h with h3 h4
        · revert h
          cases hc : parseConditionF rest2.tail with
          | error e => intro h; simp at h
          | ok cr =>
            intro h
            simp only [Except.ok.injEq, Prod.mk.injEq, Option.some.injEq] at h
            obtain ⟨hre, -⟩ := h
            left
            rw [← hre]
            simp only [Bool.and_eq_true, beq_iff_eq] at h4
            exact h4.1
        · simp only [Except.ok.injEq, Prod.mk.injEq, Option.some.injEq] at h
          obtain ⟨hre, -⟩ := h
          right
          rw [← hre]

theorem parseLoop_preserves (P : Rule → Prop)
    (hP : ∀ toks r rest, parseRuleF toks = .ok (some r, rest) → P r) :
    ∀ fuel toks acc rules, parseLoop fuel toks acc = .ok rules →
      (∀ r ∈ acc, P r) → ∀ r ∈ rules, P r := by
  intro fuel
  induction fuel with
  | zero =>
    intro toks acc rules h
    simp [parseLoop] at h
  | succ fuel ih =>
    intro toks acc rules h hacc
    simp only [parseLoop] at h
    revert h
    cases toks.head? with
    | some t =>
      simp only
      split_ifs with heof
      · intro h
        simp only [Except.ok.injEq] at h
        subst h
        exact hacc
      · cases hr : parseRuleF toks with
        | error e => intro h; simp at h
        | ok pr =>
          rcases pr with ⟨ro, rest⟩
          cases ro with
          | some r0 =>
            intro h
            refine ih rest (acc ++ [r0]) rules h ?_
            intro r hmem
            rcases List.mem_append.mp hmem with hmem2 | hmem2
            · exact hacc r hmem2
            · rcases List.mem_singleton.mp hmem2 with rfl
              exact hP toks r rest hr
          | none =>
            intro h
            exact ih rest acc rules h hacc
    | none =>
      cases hr : parseRuleF toks with
      | error e => intro h; simp at h
      | ok pr =>
        rcases pr with ⟨ro, rest⟩
        cases ro with
        | some r0 =>
          intro h
          refine ih rest (acc ++ [r0]) rules h ?_
          intro r hmem
          rcases List.mem_append.mp hmem with hmem2 | hmem2
          · exact hacc r hmem2
          · rcases List.mem_singleton.mp hmem2 with rfl
            exact hP toks r rest hr
        | none =>
          intro h
          exact ih rest acc rules h hacc

/-- C6: every rule produced by parse whose action is ignore or skip has
a null condition — the parser attaches a condition only after a delete
action. -/
theorem parse_ignore_skip_no_condition :
    ∀ toks rules, parseF toks = .ok rules →
      ∀ r ∈ rules, (r.action = "ignore" ∨ r.action = "skip") → r.condition = none := by
  intro toks rules h r hmem hact
  have hP : ∀ toks' r' rest', parseRuleF toks' = .ok (some r', rest') →
      ((r'.action = "ignore" ∨ r'.action = "skip") → r'.condition = none) := by
    intro toks' r' rest' h' hact'
    rcases parseRuleF_condition_shape h' with hdel | hnone
    · rcases hact' with hii | hss
      · rw [hii] at hdel
        simp at hdel
      · rw [hss] at hdel
        simp at hdel
    · exact hnone
  exact parseLoop_preserves _ hP _ _ [] rules h (by simp) r hmem hact

/-- Witness for C6: the parsed `skip build` rule carries no condition
(note: `skip` reaches the parser as an identifier token and is matched
by value). -/
theorem parse_ignore_skip_no_condition_witness :
    (Rule.mk ("skip") ("build") none).condition = none :=
  parse_ignore_skip_no_condition (tokenizeF ("skip build"))
    [⟨("skip"), ("build"), none⟩] (by rfl)
    ⟨("skip"), ("build"), none⟩ (by simp) (Or.inr rfl)

/-! ## Tokenizer classification (claim C7) -/

theorem tokLoop_keyword_iff :
    ∀ fuel cs line col, ∀ t ∈ (tokLoop fuel cs line col).1,
      (t.type = "keyword" ∨ t.type = "identifier") →
      (t.type = "keyword" ↔ KEYWORDS.contains t.value = true) := by
  intro fuel
  induction fuel with
  | zero =>
    intro cs line col t ht
    simp [tokLoop] at ht
  | succ fuel ih =>
    intro cs line col t ht hti
    simp only [tokLoop] at ht
    rcases hsk : skipWS cs col with ⟨cs1, col1⟩
    rw [hsk] at ht
    revert ht
    cases cs1 with
    | nil => intro ht; simp at ht
    | cons c rest =>
      simp only
      split_ifs with h1 h2 h3 h4 h5
      · intro ht
        exact ih rest (line + 1) 1 t ht hti
      · intro ht
        rcases List.mem_cons.mp ht with rfl | ht2
        · rcases hti with habs | habs <;> simp at habs
        · exact ih _ _ _ t ht2 hti
      · intro ht
        rcases List.mem_cons.mp ht with rfl | ht2
        · rcases hti with habs | habs <;> simp at habs
        · exact ih _ _ _ t ht2 hti
      · intro ht
        rcases List.mem_cons.mp ht with rfl | ht2
        · exact ⟨fun _ => h5, fun _ => rfl⟩
        · exact ih _ _ _ t ht2 hti
      · intro ht
        rcases List.mem_cons.mp ht with rfl | ht2
        · refine ⟨fun habs => ?_, fun hc => ?_⟩
          · simp at habs
          · exact absurd hc h5
        · exact ih _ _ _ t ht2 hti
      · intro ht
        exact ih _ _ _ t ht hti

/-- C7 counterexample: the unquoted run `skip` is classified as an
identifier, not a keyword — the tokenizer keyword set does not contain
"skip" — refuting the claimed thirteen-keyword classification at this
input. -/
theorem tokenize_skip_counterexample :
    tokenizeF ("skip") =
      [⟨("identifier"), ("skip"), 1, 1⟩, ⟨("eof"), (""), 1, 5⟩] ∧
      KEYWORDS.contains ("skip") = false := by
  decide

/-- C7 (amended): tokenize classifies an unquoted run as a keyword
token exactly when its text is one of the twelve words delete, ignore,
when, exists, and, not, here, parent, parents, child, children,
sibling — `skip` is not in the set and such a run becomes an identifier
token — and as an identifier token otherwise. -/
theorem tokenize_keyword_iff :
    ∀ input, ∀ t ∈ tokenizeF input,
      (t.type = "keyword" ∨ t.type = "identifier") →
      (t.type = "keyword" ↔ KEYWORDS.contains t.value = true) := by
  intro input t ht hti
  simp only [tokenizeF, List.mem_append, List.mem_singleton] at ht
  rcases ht with ht2 | rfl
  · exact tokLoop_keyword_iff _ _ _ _ t ht2 hti
  · rcases hti with habs | habs <;> simp at habs

/-- Witness for C7 (amended): the `delete` run of a concrete input is a
keyword token, and its text is in the keyword set. -/
theorem tokenize_keyword_iff_witness :
    (Token.mk ("keyword") ("delete") 1 1).type = "keyword" ↔
      KEYWORDS.contains (Token.mk ("keyword") ("delete") 1 1).value = true :=
  tokenize_keyword_iff ("delete target") ⟨("keyword"), ("delete"), 1, 1⟩
    (by decide) (Or.inl rfl)

/-! ## Target-set membership and suppression filters (claim C1) -/

theorem mem_addTarget {acc : List Path} {t x : Path} :
    x ∈ addTarget acc t ↔ x ∈ acc ∨ x = t := by
  simp only [addTarget]
  split_ifs with h
  · constructor
    · exact Or.inl
    · rintro (hx | rfl)
      · exact hx
      · simpa using h
  · simp

theorem mem_addTargets {ts : List Path} : ∀ {acc : List Path} {x : Path},
    x ∈ addTargets acc ts ↔ x ∈ acc ∨ x ∈ ts := by
  induction ts with
  | nil => simp [addTargets]
  | cons t ts ih =>
    intro acc x
    have hstep : addTargets acc (t :: ts) = addTargets (addTarget acc t) ts := rfl
    rw [hstep, ih, mem_addTarget]
    simp only [List.mem_cons]
    tauto

theorem globFilter_mem (ev : Ev) (rule : Rule) (d : Path) :
    ∀ ms p, p ∈ (globFilter ev rule d ms).1 →
      shouldIgnore ev p = false ∧ isInsideSkippedDirectory ev p = false := by
  intro ms
  induction ms with
  | nil => simp [globFilter]
  | cons m rest ih =>
    intro p
    simp only [globFilter]
    split_ifs with h1 h2
    · exact ih p
    · exact ih p
    · intro hp
      rcases List.mem_cons.mp hp with rfl | hp2
      · exact ⟨Bool.eq_false_iff.mpr h1, Bool.eq_false_iff.mpr h2⟩
      · exact ih p hp2

theorem findTargetsF_mem (env : IOEnv) (ev : Ev) (rule : Rule) (d : Path) :
    ∀ p ∈ (findTargetsF env ev rule d).1,
      shouldIgnore ev p = false ∧ isInsideSkippedDirectory ev p = false := by
  intro p hp
  simp only [findTargetsF] at hp
  split_ifs at hp with h1 h2 h3 h4
  · simp at hp
  · rcases List.mem_singleton.mp hp with rfl
    simp only [Bool.and_eq_true, Bool.not_eq_true'] at h4
    exact h4
  · simp at hp
  · simp at hp
  · revert hp
    cases env.globT d rule.target with
    | error u => intro hp; simp at hp
    | ok ms => exact globFilter_mem ev rule d ms p

theorem rulesPass_mem (env : IOEnv) (ev : Ev) (d : Path) :
    ∀ rs p, p ∈ (rulesPass env ev d rs).1 →
      shouldIgnore ev p = false ∧ isInsideSkippedDirectory ev p = false := by
  intro rs
  induction rs with
  | nil => simp [rulesPass]
  | cons rule rest ih =>
    intro p hp
    simp only [rulesPass] at hp
    rcases List.mem_append.mp hp with hmem | hmem
    · revert hmem
      split_ifs with h
      · exact findTargetsF_mem env ev rule d p
      · simp
    · exact ih p hmem

theorem dirsPass_mem (env : IOEnv) (ev : Ev) :
    ∀ ds p, p ∈ (dirsPass env ev ds).1 →
      shouldIgnore ev p = false ∧ isInsideSkippedDirectory ev p = false := by
  intro ds
  induction ds with
  | nil => simp [dirsPass]
  | cons d rest ih =>
    intro p hp
    simp only [dirsPass] at hp
    rcases List.mem_append.mp hp with hmem | hmem
    · exact rulesPass_mem env ev d ev.rules p hmem
    · exact ih p hmem

theorem evaluateEv_mem (env : IOEnv) (ev : Ev) (dr : Bool) :
    ∀ p ∈ (evaluateEv env ev dr).1,
      shouldIgnore ev p = false ∧ isInsideSkippedDirectory ev p = false := by
  intro p hp
  simp only [evaluateEv] at hp
  rcases mem_addTargets.mp hp with habs | hmem
  · simp at habs
  · exact dirsPass_mem env ev _ p hmem

theorem commonPrefixLen_append (base r : Path) :
    commonPrefixLen base (base ++ r) = base.length := by
  induction base with
  | nil => rfl
  | cons a as ih => simp [commonPrefixLen, ih]

theorem relSegs_append (base r : Path) : relSegs base (base ++ r) = r := by
  simp [relSegs, commonPrefixLen_append]

theorem take_mem_nonEmptyPrefixes {parts : Path} {k : Nat}
    (h1 : 1 ≤ k) (h2 : k ≤ parts.length) :
    parts.take k ∈ nonEmptyPrefixes parts := by
  simp only [nonEmptyPrefixes, List.mem_map, List.mem_range]
  refine ⟨k - 1, by omega, ?_⟩
  congr 1
  omega

theorem mem_nonEmptyPrefixes_shape {parts pre : Path} :
    pre ∈ nonEmptyPrefixes parts →
      ∃ k, 1 ≤ k ∧ k ≤ parts.length ∧ pre = parts.take k := by
  simp only [nonEmptyPrefixes, List.mem_map, List.mem_range]
  rintro ⟨i, hi, rfl⟩
  exact ⟨i + 1, by omega, by omega, rfl⟩

/-- Matcher monotonicity beneath an ignored ancestor: if the relative
path `ra` (non-empty, a proper prefix of `rp`) is recognized by the
ignore set, so is `rp` — the plain-matcher and prefix cases reuse the
ancestor-prefix check, and the directory-matcher case uses the
minimatch coherence property of the compiled "/**" pattern. -/
theorem shouldIgnore_of_ancestor (ev : Ev) (hdm : dmSound ev.ignoreMatchers)
    {ra rp : Path} (h0 : ra ≠ []) (hpre : ra <+: rp) (hne : ra ≠ rp)
    (hig : shouldIgnore ev (ev.base ++ ra) = true) :
    shouldIgnore ev (ev.base ++ rp) = true := by
  obtain ⟨s, rfl⟩ := hpre
  have hs : s ≠ [] := by
    intro hnil
    subst hnil
    simp at hne
  simp only [shouldIgnore, relSegs_append, Bool.or_eq_true] at hig ⊢
  rcases hig with hhit | hpar
  · simp only [matchersHit, List.any_eq_true] at hhit
    obtain ⟨mp, hmp, hor⟩ := hhit
    simp only [Bool.or_eq_true] at hor
    rcases hor with hdmc | hm
    · revert hdmc
      cases hdmm : mp.dm with
      | none => intro hdmc; simp at hdmc
      | some f =>
        intro hdmc
        have hms := hdm mp hmp f hdmm ra s hdmc hs
        left
        simp only [matchersHit, List.any_eq_true]
        exact ⟨mp, hmp, by simp [hms]⟩
    · right
      simp only [checkParentDirectories, List.any_eq_true]
      refine ⟨mp, hmp, ra, ?_, hm⟩
      have hlen1 : 1 ≤ ra.length := by
        cases ra with
        | nil => exact absurd rfl h0
        | cons a as => simp
      have hra : ra = (ra ++ s).take ra.length := by simp
      have hmem2 := @take_mem_nonEmptyPrefixes (ra ++ s) ra.length hlen1
        (by simp only [List.length_append]; omega)
      rw [← hra] at hmem2
      exact hmem2
  · right
    simp only [checkParentDirectories, List.any_eq_true] at hpar ⊢
    obtain ⟨mp, hmp, pre, hpre_mem, hm⟩ := hpar
    obtain ⟨k, hk1, hk2, rfl⟩ := mem_nonEmptyPrefixes_shape hpre_mem
    refine ⟨mp, hmp, ra.take k, ?_, hm⟩
    have htk : ra.take k = (ra ++ s).take k := by
      rw [List.take_append_of_le_length hk2]
    rw [htk]
    refine take_mem_nonEmptyPrefixes hk1 ?_
    simp only [List.length_append]
    omega

/-- isInsideSkippedDirectory of a path below the base holds exactly
when some proper ancestor strictly between the base and the path
satisfies shouldSkipTraversal. -/
theorem isInside_iff (ev : Ev) (rp : Path) :
    isInsideSkippedDirectory ev (ev.base ++ rp) = true ↔
      ∃ k, 1 ≤ k ∧ k < rp.length ∧
        shouldSkipTraversal ev (ev.base ++ rp.take k) = true := by
  simp only [isInsideSkippedDirectory, relSegs_append, List.any_eq_true, List.mem_map,
    List.mem_range]
  constructor
  · rintro ⟨a, ⟨i, hi, rfl⟩, hsk⟩
    exact ⟨i + 1, by omega, by omega, hsk⟩
  · rintro ⟨k, h1, h2, hsk⟩
    refine ⟨ev.base ++ rp.take k, ⟨k - 1, by omega, ?_⟩, hsk⟩
    congr 2
    omega

/-- C1: on the concrete skip scenario the target set contains exactly
the node_modules directory, which itself matches the skip set (a
skip-matching path may appear); in general every path in a returned
target set is neither ignored nor strictly inside a skip-covered
directory; being strictly inside a skip-covered directory means some
proper ancestor below the base matches the skip set; and a path lying
strictly beneath an ignored ancestor (for matchers with the minimatch
recursive-suffix coherence property) never appears in the target set. -/
theorem evaluate_skip_ignore_semantics :
    ((evaluateEv exEnv exEv true).1 = [[("ws"), ("node_modules")]] ∧
      shouldSkipTraversal exEv [("ws"), ("node_modules")] = true) ∧
    (∀ env ev dr p, p ∈ (evaluateEv env ev dr).1 →
      shouldIgnore ev p = false ∧ isInsideSkippedDirectory ev p = false) ∧
    (∀ ev rp, isInsideSkippedDirectory ev (ev.base ++ rp) = true ↔
      ∃ k, 1 ≤ k ∧ k < rp.length ∧
        shouldSkipTraversal ev (ev.base ++ rp.take k) = true) ∧
    (∀ env ev dr ra rp, dmSound ev.ignoreMatchers →
      ra ≠ [] → ra <+: rp → ra ≠ rp →
      shouldIgnore ev (ev.base ++ ra) = true →
      ev.base ++ rp ∉ (evaluateEv env ev dr).1) := by
  refine ⟨⟨by decide, by decide⟩, evaluateEv_mem, isInside_iff, ?_⟩
  intro env ev dr ra rp hdm h0 hpre hne hig hmem
  have hp := (evaluateEv_mem env ev dr _ hmem).1
  have hig2 := shouldIgnore_of_ancestor ev hdm h0 hpre hne hig
  rw [hig2] at hp
  simp at hp

/-- Witness for C1: the concrete target of the skip scenario is neither
ignored nor inside a skip-covered directory. -/
theorem evaluate_skip_ignore_semantics_witness :
    shouldIgnore exEv [("ws"), ("node_modules")] = false ∧
      isInsideSkippedDirectory exEv [("ws"), ("node_modules")] = false :=
  evaluate_skip_ignore_semantics.2.1 exEnv exEv true [("ws"), ("node_modules")] (by decide)

/-! ## Base-boundary containment of location resolution (claim C4) -/

/-- Members of the parents ancestor walk are exactly the proper
prefix-ancestors of the current directory that still extend the base:
the walk stops at the base boundary and never climbs above it. -/
theorem parentsChain_mem (base : Path) :
    ∀ cur d, d ∈ parentsChain base cur ↔
      (base.isPrefixOf d = true ∧ d <+: cur ∧ d ≠ cur) := by
  intro cur
  induction cur using List.reverseRecOn with
  | nil =>
    intro d
    rw [parentsChain]
    simp only [List.dropLast_nil, ne_eq, not_true_eq_false, false_and, dite_false,
      List.not_mem_nil, false_iff, not_and]
    intro hbase hpre hne
    exact hne (List.prefix_nil.mp hpre)
  | append_singleton xs x ih =>
    intro d
    rw [parentsChain]
    simp only [List.dropLast_concat]
    have hxs_ne : xs ≠ xs ++ [x] := by
      intro h
      have := congrArg List.length h
      simp at this
    by_cases hb : base.isPrefixOf xs = true
    · rw [dif_pos ⟨hxs_ne, hb⟩]
      simp only [List.mem_cons, ih]
      constructor
      · rintro (rfl | ⟨h1, h2, h3⟩)
        · exact ⟨hb, List.prefix_append _ _, hxs_ne⟩
        · refine ⟨h1, h2.trans (List.prefix_append _ _), ?_⟩
          intro heq
          have := h2.length_le
          rw [heq] at this
          simp at this
      · rintro ⟨h1, h2, h3⟩
        rcases List.prefix_concat_iff.mp h2 with heq | hpre2
        · exact absurd heq h3
        · by_cases hdx : d = xs
          · exact Or.inl hdx
          · exact Or.inr ⟨h1, hpre2, hdx⟩
    · rw [dif_neg (by
        intro hc
        exact hb hc.2)]
      simp only [List.not_mem_nil, false_iff, not_and]
      intro h1 h2 h3
      rcases List.prefix_concat_iff.mp h2 with heq | hpre2
      · exact absurd heq h3
      · apply hb
        rw [List.isPrefixOf_iff_prefix]
        exact (List.isPrefixOf_iff_prefix.mp h1).trans hpre2

mutual
/-- Every directory collected beneath `p` extends `p`. -/
theorem mem_collectNode (ev : Ev) :
    ∀ (p : Path) (node : FS) (d : Path), d ∈ collectNode ev p node →
      ∃ s, s ≠ [] ∧ d = p ++ s
  | p, .file, d => by
    intro h
    simp [collectNode] at h
  | p, .dir false es, d => by
    intro h
    simp [collectNode] at h
  | p, .dir true es, d => by
    intro h
    exact mem_collectEntries ev p es d h
/-- Every directory collected from an entry list beneath `p` extends
`p`. -/
theorem mem_collectEntries (ev : Ev) :
    ∀ (p : Path) (es : Entries) (d : Path), d ∈ collectEntries ev p es →
      ∃ s, s ≠ [] ∧ d = p ++ s
  | p, .nil, d => by
    intro h
    simp [collectEntries] at h
  | p, .cons name child rest, d => by
    intro h
    simp only [collectEntries] at h
    rcases List.mem_append.mp h with hmem | hmem
    · revert hmem
      split_ifs with h1 h2
      · intro hmem
        simp at hmem
      · intro hmem
        rcases List.mem_cons.mp hmem with rfl | hmem2
        · exact ⟨[name], by simp, rfl⟩
        · obtain ⟨s, hs, rfl⟩ := mem_collectNode ev (p ++ [name]) child d hmem2
          exact ⟨name :: s, by simp, by simp⟩
      · intro hmem
        simp at hmem
    · exact mem_collectEntries ev p rest d hmem
end

theorem mem_childFilter (ev : Ev) (cur : Path) :
    ∀ es d, d ∈ childFilter ev cur es → ∃ name, d = cur ++ [name]
  | .nil, d => by
    intro hd
    simp [childFilter] at hd
  | .cons name child rest, d => by
    intro hd
    simp only [childFilter] at hd
    rcases List.mem_append.mp hd with hmem | hmem
    · revert hmem
      split_ifs with h1
      · intro hmem
        rcases List.mem_singleton.mp hmem with rfl
        exact ⟨name, rfl⟩
      · intro hmem
        simp at hmem
    · exact mem_childFilter ev cur rest d hmem

theorem mem_entryDirs (pd : Path) :
    ∀ es d, d ∈ entryDirs pd es → ∃ name, d = pd ++ [name]
  | .nil, d => by
    intro hd
    simp [entryDirs] at hd
  | .cons name child rest, d => by
    intro hd
    simp only [entryDirs] at hd
    rcases List.mem_append.mp hd with hmem | hmem
    · revert hmem
      split_ifs with h1
      · intro hmem
        rcases List.mem_singleton.mp hmem with rfl
        exact ⟨name, rfl⟩
      · intro hmem
        simp at hmem
    · exact mem_entryDirs pd rest d hmem

theorem isPrefixOf_trans_ext {base c d : Path}
    (hb : base.isPrefixOf c = true) (hext : c <+: d) :
    base.isPrefixOf d = true := by
  rw [List.isPrefixOf_iff_prefix] at hb ⊢
  exact hb.trans hext

theorem not_isPrefixOf_dropLast {l : Path} (h : l ≠ []) :
    l.isPrefixOf l.dropLast = false := by
  apply Bool.eq_false_iff.mpr
  intro hc
  have hle := (List.isPrefixOf_iff_prefix.mp hc).length_le
  rw [List.length_dropLast] at hle
  have hpos : 0 < l.length := List.length_pos.mpr h
  omega

/-- C4: for a visited directory (below the base) every location
modifier resolves only to directories inside the base: parent of the
base itself is empty, parents enumerates exactly the proper ancestors
down to (and including) the base and never climbs above it, and
sibling is empty when the parent directory falls outside the base. -/
theorem getLocationDirs_within_base :
    ∀ env ev (cur : Path), ev.base.isPrefixOf cur = true →
      (∀ loc, ∀ d ∈ getLocationDirs ev env cur loc, ev.base.isPrefixOf d = true) ∧
      (cur = ev.base → getLocationDirs ev env cur ("parent") = []) ∧
      (∀ d, d ∈ getLocationDirs ev env cur ("parents") ↔
        (ev.base.isPrefixOf d = true ∧ d <+: cur ∧ d ≠ cur)) ∧
      (ev.base.isPrefixOf cur.dropLast = false →
        getLocationDirs ev env cur ("sibling") = []) := by
  intro env ev cur hbase
  refine ⟨?_, ?_, ?_, ?_⟩
  · intro loc d hd
    by_cases h1 : (loc == "here") = true
    · rw [getLocationDirs, if_pos h1] at hd
      rcases List.mem_singleton.mp hd with rfl
      exact hbase
    · by_cases h2 : (loc == "parent") = true
      · rw [getLocationDirs, if_neg h1, if_pos h2] at hd
        revert hd
        split_ifs with hc
        · intro hd
          simp at hd
        · intro hd
          rcases List.mem_singleton.mp hd with rfl
          simp only [Bool.or_eq_true, Bool.not_eq_true', not_or] at hc
          exact (Bool.eq_false_or_eq_true _).resolve_right hc.2
      · by_cases h3 : (loc == "parents") = true
        · rw [getLocationDirs, if_neg h1, if_neg h2, if_pos h3] at hd
          exact ((parentsChain_mem ev.base cur d).mp hd).1
        · by_cases h4 : (loc == "child") = true
          · rw [getLocationDirs, if_neg h1, if_neg h2, if_neg h3, if_pos h4] at hd
            revert hd
            cases hres : readdirAt env cur with
            | error u =>
              intro hd
              simp at hd
            | ok es =>
              intro hd
              obtain ⟨name, rfl⟩ := mem_childFilter ev cur es d hd
              exact isPrefixOf_trans_ext hbase (List.prefix_append _ _)
          · by_cases h5 : (loc == "children") = true
            · rw [getLocationDirs, if_neg h1, if_neg h2, if_neg h3, if_neg h4,
                if_pos h5] at hd
              revert hd
              cases hlook : FS.lookup env.fs cur with
              | none =>
                intro hd
                simp at hd
              | some node =>
                intro hd
                obtain ⟨s, hs, rfl⟩ := mem_collectNode ev cur node d hd
                exact isPrefixOf_trans_ext hbase (List.prefix_append _ _)
            · by_cases h6 : (loc == "sibling") = true
              · rw [getLocationDirs, if_neg h1, if_neg h2, if_neg h3, if_neg h4,
                  if_neg h5, if_pos h6] at hd
                revert hd
                split_ifs with hc
                · intro hd
                  simp at hd
                · cases hres : readdirAt env cur.dropLast with
                  | error u =>
                    intro hd
                    simp at hd
                  | ok es =>
                    intro hd
                    have hd2 := List.mem_of_mem_filter hd
                    obtain ⟨name, rfl⟩ := mem_entryDirs cur.dropLast es _ hd2
                    simp only [Bool.or_eq_true, Bool.not_eq_true', not_or] at hc
                    have hpre : ev.base.isPrefixOf cur.dropLast = true :=
                      (Bool.eq_false_or_eq_true _).resolve_right hc.2
                    exact isPrefixOf_trans_ext hpre (List.prefix_append _ _)
              · rw [getLocationDirs, if_neg h1, if_neg h2, if_neg h3, if_neg h4,
                  if_neg h5, if_neg h6] at hd
                rcases List.mem_singleton.mp hd with rfl
                exact hbase
  · intro hcur
    subst hcur
    rw [getLocationDirs, if_neg (by decide), if_pos (by decide)]
    have hcond : ((ev.base.dropLast == ev.base) ||
        !List.isPrefixOf ev.base ev.base.dropLast) = true := by
      cases hb0 : ev.base with
      | nil => simp
      | cons a as =>
        rw [@not_isPrefixOf_dropLast (a :: as) (by simp)]
        simp
    rw [if_pos hcond]
  · intro d
    rw [getLocationDirs, if_neg (by decide), if_neg (by decide), if_pos (by decide)]
    exact parentsChain_mem ev.base cur d
  · intro hout
    rw [getLocationDirs, if_neg (by decide), if_neg (by decide), if_neg (by decide),
      if_neg (by decide), if_neg (by decide), if_pos (by decide)]
    have hcond : ((cur.dropLast == cur) || !List.isPrefixOf ev.base cur.dropLast) = true := by
      rw [hout]
      simp
    rw [if_pos hcond]

/-- Witness for C4: at a concrete visited directory below the base,
parents resolves to exactly the base, inside the base. -/
theorem getLocationDirs_within_base_witness :
    [("ws")] ∈ getLocationDirs exEv exEnv [("ws"), ("src")] ("parents") ↔
      (exEv.base.isPrefixOf [("ws")] = true ∧
        [("ws")] <+: [("ws"), ("src")] ∧ [("ws")] ≠ [("ws"), ("src")]) :=
  (getLocationDirs_within_base exEnv exEv [("ws"), ("src")] (by decide)).2.2.1 [("ws")]

end Dust
